import Mathlib

/-!
Verification of the distributed ray-tracer against its specification.

Each Go package is embedded as a Lean namespace.  Floating-point (`float64`)
arithmetic is modelled by exact rational arithmetic (`ℚ`); machine integers
(`uint`, `uint32`) are modelled by `ℕ`, with an explicit `% 2 ^ 32` at the one
place where a `uint32` addition can overflow.
-/

set_option maxHeartbeats 1000000
set_option maxRecDepth 4000

namespace colour

/-- `RGB` from `src/shared/colour/colour.go`: a colour with red, green and blue
channels, each a `float64` (modelled as `ℚ`). -/
structure RGB where
  r : ℚ
  g : ℚ
  b : ℚ
deriving DecidableEq

/-- `NewRGB` from `src/shared/colour/colour.go`: build an `RGB` from three
`uint8` channels (modelled as `Fin 256`), dividing each by `255.0`. -/
def NewRGB (r g b : Fin 256) : RGB :=
  ⟨(r : ℚ) / 255, (g : ℚ) / 255, (b : ℚ) / 255⟩

/-- `NewRGBFromFloats` from `src/shared/colour/colour.go`: clamp each channel
to `[0, 1]` via `math.Max(0, math.Min(·, 1))`. -/
def NewRGBFromFloats (r g b : ℚ) : RGB :=
  ⟨max 0 (min r 1), max 0 (min g 1), max 0 (min b 1)⟩

/-- `RGB.Add` from `src/shared/colour/colour.go`: channel-wise sum, capped at
`1` via `math.Min`. -/
def RGB.Add (a b : RGB) : RGB :=
  ⟨min (a.r + b.r) 1, min (a.g + b.g) 1, min (a.b + b.b) 1⟩

/-- `RGB.Scale` from `src/shared/colour/colour.go`: channel-wise scaling,
clamped to `[0, 1]`. -/
def RGB.Scale (a : RGB) (s : ℚ) : RGB :=
  ⟨max 0 (min (s * a.r) 1), max 0 (min (s * a.g) 1), max 0 (min (s * a.b) 1)⟩

/-- `RGB.Multiply` from `src/shared/colour/colour.go`: channel-wise product. -/
def RGB.Multiply (a b : RGB) : RGB :=
  ⟨a.r * b.r, a.g * b.g, a.b * b.b⟩

/-- All three channels lie in `[0, 1]` (the documented invariant of `RGB`). -/
def InRange (c : RGB) : Prop :=
  0 ≤ c.r ∧ c.r ≤ 1 ∧ 0 ≤ c.g ∧ c.g ≤ 1 ∧ 0 ≤ c.b ∧ c.b ≤ 1

instance (c : RGB) : Decidable (InRange c) := by
  unfold InRange
  infer_instance

/-- Colours reachable through the public constructors and operations of the
`colour` package. -/
inductive Reachable : RGB → Prop
  | newRGB (r g b : Fin 256) : Reachable (NewRGB r g b)
  | newRGBFromFloats (r g b : ℚ) : Reachable (NewRGBFromFloats r g b)
  | add {a b : RGB} : Reachable a → Reachable b → Reachable (a.Add b)
  | scale {a : RGB} (s : ℚ) : Reachable a → Reachable (a.Scale s)
  | multiply {a b : RGB} : Reachable a → Reachable b → Reachable (a.Multiply b)

theorem inRange_newRGB (r g b : Fin 256) : InRange (NewRGB r g b) := by
  have hr := r.isLt
  have hg := g.isLt
  have hb := b.isLt
  refine ⟨?_, ?_, ?_, ?_, ?_, ?_⟩ <;>
    simp only [NewRGB] <;>
    [positivity; skip; positivity; skip; positivity; skip] <;>
    rw [div_le_one (by norm_num)] <;>
    exact_mod_cast Nat.le_of_lt_succ (by omega)

theorem inRange_newRGBFromFloats (r g b : ℚ) : InRange (NewRGBFromFloats r g b) := by
  unfold InRange NewRGBFromFloats
  refine ⟨le_max_left _ _, ?_, le_max_left _ _, ?_, le_max_left _ _, ?_⟩ <;>
    exact max_le (by norm_num) (min_le_right _ _)

theorem inRange_add {a b : RGB} (ha : InRange a) (hb : InRange b) : InRange (a.Add b) := by
  obtain ⟨ha1, ha2, ha3, ha4, ha5, ha6⟩ := ha
  obtain ⟨hb1, hb2, hb3, hb4, hb5, hb6⟩ := hb
  refine ⟨?_, min_le_right _ _, ?_, min_le_right _ _, ?_, min_le_right _ _⟩ <;>
    exact le_min (by linarith) (by norm_num)

theorem inRange_scale (a : RGB) (s : ℚ) : InRange (a.Scale s) := by
  unfold InRange RGB.Scale
  refine ⟨le_max_left _ _, ?_, le_max_left _ _, ?_, le_max_left _ _, ?_⟩ <;>
    exact max_le (by norm_num) (min_le_right _ _)

theorem inRange_multiply {a b : RGB} (ha : InRange a) (hb : InRange b) :
    InRange (a.Multiply b) := by
  obtain ⟨ha1, ha2, ha3, ha4, ha5, ha6⟩ := ha
  obtain ⟨hb1, hb2, hb3, hb4, hb5, hb6⟩ := hb
  refine ⟨?_, ?_, ?_, ?_, ?_, ?_⟩ <;> simp only [RGB.Multiply] <;> nlinarith

/-- Claim C10: every colour produced by `NewRGB` or `NewRGBFromFloats` has all
channels in `[0, 1]`; `Add`, `Scale` and `Multiply` preserve that range; hence
every colour reachable through the public colour operations keeps all channels
within `[0, 1]`. -/
theorem colour_channels_in_range :
    (∀ r g b : Fin 256, InRange (NewRGB r g b)) ∧
    (∀ r g b : ℚ, InRange (NewRGBFromFloats r g b)) ∧
    (∀ a b : RGB, InRange a → InRange b → InRange (a.Add b)) ∧
    (∀ (a : RGB) (s : ℚ), InRange a → InRange (a.Scale s)) ∧
    (∀ a b : RGB, InRange a → InRange b → InRange (a.Multiply b)) ∧
    (∀ c : RGB, Reachable c → InRange c) := by
  refine ⟨inRange_newRGB, inRange_newRGBFromFloats, @inRange_add,
    fun a s _ => inRange_scale a s, @inRange_multiply, fun c hc => ?_⟩
  induction hc with
  | newRGB r g b => exact inRange_newRGB r g b
  | newRGBFromFloats r g b => exact inRange_newRGBFromFloats r g b
  | add _ _ iha ihb => exact inRange_add iha ihb
  | scale s _ iha => exact inRange_scale _ s
  | multiply _ _ iha ihb => exact inRange_multiply iha ihb

/-- Concrete instantiation of `colour_channels_in_range`: range preservation on
actual colour values. -/
theorem colour_channels_in_range_witness :
    InRange (NewRGB 16 255 0) ∧
    InRange ((NewRGB 16 255 0).Add (NewRGB 250 250 250)) ∧
    InRange ((NewRGB 16 255 0).Multiply (NewRGBFromFloats 2 (-1) (1/2))) :=
  ⟨colour_channels_in_range.1 16 255 0,
   colour_channels_in_range.2.2.1 _ _ (colour_channels_in_range.1 16 255 0)
     (colour_channels_in_range.1 250 250 250),
   colour_channels_in_range.2.2.2.2.1 _ _ (colour_channels_in_range.1 16 255 0)
     (colour_channels_in_range.2.1 2 (-1) (1/2))⟩

end colour

namespace geom

/-- `Vector` from `src/shared/geom/vector.go`: a 3-vector of `float64`
components (modelled as `ℚ`). -/
structure Vector where
  X : ℚ
  Y : ℚ
  Z : ℚ
deriving DecidableEq

/-- `Vector.Add` from `src/shared/geom/vector.go`. -/
def Vector.Add (a b : Vector) : Vector :=
  ⟨a.X + b.X, a.Y + b.Y, a.Z + b.Z⟩

/-- `Vector.Sub` from `src/shared/geom/vector.go`. -/
def Vector.Sub (a b : Vector) : Vector :=
  ⟨a.X - b.X, a.Y - b.Y, a.Z - b.Z⟩

/-- `Vector.Scale` from `src/shared/geom/vector.go`. -/
def Vector.Scale (a : Vector) (s : ℚ) : Vector :=
  ⟨s * a.X, s * a.Y, s * a.Z⟩

/-- `Vector.Dot` from `src/shared/geom/vector.go`. -/
def Vector.Dot (a b : Vector) : ℚ :=
  a.X * b.X + a.Y * b.Y + a.Z * b.Z

/-- `Vector.Cross` from `src/shared/geom/vector.go`. -/
def Vector.Cross (a b : Vector) : Vector :=
  ⟨a.Y * b.Z - a.Z * b.Y, a.Z * b.X - a.X * b.Z, a.X * b.Y - a.Y * b.X⟩

/-- `Vector.Norm` from `src/shared/geom/vector.go` computes
`mag := math.Sqrt(a·a)` and divides each component by `mag`.  Since a square
root is in general irrational, the normalisation is embedded relationally:
`NormIs a u` holds exactly when `u` is `a` divided component-wise by a
non-negative `m` with `m * m = a·a`, i.e. when `u` is the result `a.Norm()`
would produce and that result has rational components. -/
def Vector.NormIs (a u : Vector) : Prop :=
  ∃ m : ℚ, 0 ≤ m ∧ m * m = a.Dot a ∧ u = ⟨a.X / m, a.Y / m, a.Z / m⟩

/-- `BaryCoords` from `src/unnamed/part_015` (package `geom`): barycentric
coordinates of a point on a triangle. -/
structure BaryCoords where
  R1 : ℚ
  R2 : ℚ
  R3 : ℚ
deriving DecidableEq

/-- `Triangle` from `src/unnamed/part_015` (package `geom`): three vertices
and three (possibly unset, i.e. zero) vertex normals. -/
structure Triangle where
  P1 : Vector
  P2 : Vector
  P3 : Vector
  N1 : Vector
  N2 : Vector
  N3 : Vector
deriving DecidableEq

/-- `Triangle.Normal` from `src/unnamed/part_015` returns
`(P2-P1) × (P3-P1)` normalised; stated relationally through `Vector.NormIs`
because of the square root inside `Norm`. -/
def Triangle.NormalIs (t : Triangle) (u : Vector) : Prop :=
  Vector.NormIs ((t.P2.Sub t.P1).Cross (t.P3.Sub t.P1)) u

/-- `Triangle.Intersection` from `src/unnamed/part_015`: the Möller–Trumbore
ray/triangle test.  The Go function returns `(Vector, BaryCoords, bool)`; the
`false` case is modelled as `none`. -/
def Triangle.Intersection (t : Triangle) (rOrigin rDir : Vector) :
    Option (Vector × BaryCoords) :=
  let p1p2 := t.P2.Sub t.P1
  let p1p3 := t.P3.Sub t.P1
  let negativeDir := rDir.Scale (-1)
  let incidence := p1p2.Dot (p1p3.Cross negativeDir)
  if incidence ≠ 0 then
    let p1Or := rOrigin.Sub t.P1
    let r2 := p1Or.Dot (p1p3.Cross negativeDir) / incidence
    if 0 ≤ r2 ∧ r2 ≤ 1 then
      let r3 := p1p2.Dot (p1Or.Cross negativeDir) / incidence
      if 0 ≤ r2 + r3 ∧ r2 + r3 ≤ 1 then
        let r1 := 1 - r2 - r3
        if r1 ≥ 0 ∧ r2 ≥ 0 ∧ r3 ≥ 0 then
          let dirScale := p1p2.Dot (p1p3.Cross p1Or) / incidence
          if dirScale ≥ 0 then
            some (rOrigin.Add (rDir.Scale dirScale), ⟨r1, r2, r3⟩)
          else
            none
        else
          none
      else
        none
    else
      none
  else
    none

/-- Claim C2: `Triangle.Intersection` reports a hit exactly when, with
`e1 = P2−P1`, `e2 = P3−P1`, `p = rO−P1` and `inc = e1·(e2×(−rD))`: `inc ≠ 0`,
`r2 = p·(e2×(−rD))/inc ∈ [0,1]`, `r3 = e1·(p×(−rD))/inc` satisfies
`0 ≤ r2+r3 ≤ 1`, `r1 = 1−r2−r3` and `r1,r2,r3 ≥ 0`, and
`t = e1·(e2×p)/inc ≥ 0`; on a hit it returns `rO + t·rD` together with the
barycentric coordinates `(r1, r2, r3)`. -/
theorem intersection_moller_trumbore (t : Triangle) (rO rD : Vector) :
    t.Intersection rO rD =
      (let e1 := t.P2.Sub t.P1
       let e2 := t.P3.Sub t.P1
       let nd := rD.Scale (-1)
       let inc := e1.Dot (e2.Cross nd)
       let p := rO.Sub t.P1
       let r2 := p.Dot (e2.Cross nd) / inc
       let r3 := e1.Dot (p.Cross nd) / inc
       let r1 := 1 - r2 - r3
       let tv := e1.Dot (e2.Cross p) / inc
       if inc ≠ 0 ∧ 0 ≤ r2 ∧ r2 ≤ 1 ∧ 0 ≤ r2 + r3 ∧ r2 + r3 ≤ 1 ∧
           0 ≤ r1 ∧ 0 ≤ r2 ∧ 0 ≤ r3 ∧ 0 ≤ tv then
         some (rO.Add (rD.Scale tv), ⟨r1, r2, r3⟩)
       else
         none) := by
  simp only [Triangle.Intersection, ge_iff_le]
  split_ifs <;> first | rfl | tauto

/-- The triangle of end-to-end scenario 1 in the specification:
`P1=(0,0,5)`, `P2=(1,0,5)`, `P3=(0,1,5)`, vertex normals unset (zero). -/
def straightTri : Triangle :=
  ⟨⟨0, 0, 5⟩, ⟨1, 0, 5⟩, ⟨0, 1, 5⟩, ⟨0, 0, 0⟩, ⟨0, 0, 0⟩, ⟨0, 0, 0⟩⟩

/-- Claim C3 (corrected): the straight-on ray hits `straightTri` at
`(0.2, 0.2, 5)` with barycentric coordinates `(0.6, 0.2, 0.2)`, and the
geometric normal `Triangle.Normal` is `(0, 0, 1)` — not `(0, 0, -1)` as the
specification's scenario claims. -/
theorem straight_on_hit :
    straightTri.Intersection ⟨1/5, 1/5, 0⟩ ⟨0, 0, 1⟩ =
      some (⟨1/5, 1/5, 5⟩, ⟨3/5, 1/5, 1/5⟩) ∧
    straightTri.NormalIs ⟨0, 0, 1⟩ := by
  constructor
  · norm_num [Triangle.Intersection, straightTri, Vector.Sub, Vector.Cross,
      Vector.Dot, Vector.Scale, Vector.Add]
  · refine ⟨1, by norm_num, ?_, ?_⟩ <;>
      simp [straightTri, Vector.Sub, Vector.Cross, Vector.Dot]

/-- Counterexample to claim C3 as stated: the geometric normal of the
scenario's triangle is not `(0, 0, -1)` (it is `(0, 0, 1)`; the cross product
`(P2-P1) × (P3-P1)` points toward positive `z` and normalisation divides by a
non-negative magnitude). -/
theorem straight_on_hit_normal_counterexample :
    ¬ straightTri.NormalIs ⟨0, 0, -1⟩ := by
  rintro ⟨m, hm, hsq, hu⟩
  simp only [straightTri, Triangle.NormalIs, Vector.Sub, Vector.Cross, Vector.Dot] at hsq hu
  norm_num at hsq hu
  have hm1 : m = 1 := by nlinarith
  rw [hm1] at hu
  norm_num at hu

end geom

namespace master

/-- `2 ^ 32`: the modulus of Go's `uint32` arithmetic. -/
def U32 : ℕ := 2 ^ 32

/-- `comms.WorkOrder` (from `src/shared/comms/comms.proto`, as used in
`src/master/main.go`): a rectangular screen area `(x, y, width, height)` of
`uint32` fields plus the encoded mutable-environment bytes `diff`. -/
structure WorkOrder where
  x : ℕ
  y : ℕ
  width : ℕ
  height : ℕ
  diff : List ℕ
deriving DecidableEq

/-- `widthKernel` from `src/master/main.go`. -/
def widthKernel : ℕ := 50

/-- `heightKernel` from `src/master/main.go`. -/
def heightKernel : ℕ := 50

/-- `workerRedundancy` from `src/master/main.go`. -/
def workerRedundancy : ℕ := 2

/-- The split dimension actually used by `partition` in `src/master/main.go`:
`dimension` is forced to `1` when the area is too narrow to split vertically
and to `0` when it is too short to split horizontally. -/
def forcedDim (area : WorkOrder) (dimension : ℕ) : ℕ :=
  if area.width ≤ widthKernel then 1
  else if area.height ≤ heightKernel then 0
  else dimension

/-- `partition` from `src/master/main.go` (lines 54–91): recursively split an
area into sub-areas, returning the sub-areas and the number of leftover
workers.  The additions `x + width / 2` and `y + height / 2` are `uint32`
additions in Go, hence the explicit `% U32`; all other arithmetic cannot
overflow on the branches where it is executed. -/
def partition (area : WorkOrder) (workers dimension : ℕ) : List WorkOrder × ℕ :=
  if workers / workerRedundancy < 2 then
    if workerRedundancy < workers then ([area], workers % workerRedundancy)
    else ([area], 0)
  else if hk : area.width ≤ widthKernel ∧ area.height ≤ heightKernel then
    ([area], workers - workerRedundancy)
  else if hdim : forcedDim area dimension % 2 = 0 then
    let leftOrder : WorkOrder :=
      ⟨area.x, area.y, area.width / 2, area.height, area.diff⟩
    let rightOrder : WorkOrder :=
      ⟨(area.x + area.width / 2) % U32, area.y,
        area.width / 2 + area.width % 2, area.height, area.diff⟩
    let lres := partition leftOrder (workers / 2 + workers % 2)
      ((forcedDim area dimension + 1) % 2)
    let rres := partition rightOrder (workers / 2 + lres.2)
      ((forcedDim area dimension + 1) % 2)
    (lres.1 ++ rres.1, rres.2)
  else
    let leftOrder : WorkOrder :=
      ⟨area.x, area.y, area.width, area.height / 2, area.diff⟩
    let rightOrder : WorkOrder :=
      ⟨area.x, (area.y + area.height / 2) % U32,
        area.width, area.height / 2 + area.height % 2, area.diff⟩
    let lres := partition leftOrder (workers / 2 + workers % 2)
      ((forcedDim area dimension + 1) % 2)
    let rres := partition rightOrder (workers / 2 + lres.2)
      ((forcedDim area dimension + 1) % 2)
    (lres.1 ++ rres.1, rres.2)
termination_by area.width + area.height
decreasing_by
  all_goals
    simp only [forcedDim, widthKernel, heightKernel] at hdim hk ⊢
  all_goals
    split_ifs at hdim <;> omega

/-- With exactly two workers, `partition` returns the whole area and no
leftover workers (the `workers / workerRedundancy < 2` branch). -/
theorem partition_two_workers (area : WorkOrder) (dim : ℕ) :
    partition area 2 dim = ([area], 0) := by
  rw [partition.eq_def]
  norm_num [workerRedundancy]

/-- Evaluation of `partition` on the specification's partitioner scenario:
area `(0, 0, 100, 100)`, 4 workers, initial dimension `0` (the value the
coordinator passes at `src/master/main.go` line 101). -/
theorem partition_scenario_eval (d : List ℕ) :
    partition ⟨0, 0, 100, 100, d⟩ 4 0 =
      ([⟨0, 0, 50, 100, d⟩, ⟨50, 0, 50, 100, d⟩], 0) := by
  rw [partition.eq_def]
  norm_num [forcedDim, widthKernel, heightKernel, workerRedundancy, U32,
    partition_two_workers]

/-- Claim C4 (corrected): `partition` on area `(0, 0, 100, 100)` with 4
workers and the initial split-axis value `0` that the coordinator passes
returns the two tiles `(0, 0, 50, 100)` and `(50, 0, 50, 100)` (a split along
the width), in that order, with 0 leftover workers — not the height-split
tiles `(0, 0, 100, 50)` and `(0, 50, 100, 50)` that the specification's
scenario expects. -/
theorem partition_scenario (d : List ℕ) :
    partition ⟨0, 0, 100, 100, d⟩ 4 0 =
      ([⟨0, 0, 50, 100, d⟩, ⟨50, 0, 50, 100, d⟩], 0) :=
  partition_scenario_eval d

/-- A screen pixel `(p.1, p.2)` lies inside the rectangle described by a
`WorkOrder`. -/
def InArea (p : ℕ × ℕ) (a : WorkOrder) : Prop :=
  a.x ≤ p.1 ∧ p.1 < a.x + a.width ∧ a.y ≤ p.2 ∧ p.2 < a.y + a.height

instance (p : ℕ × ℕ) (a : WorkOrder) : Decidable (InArea p a) := by
  unfold InArea
  infer_instance

/-- The tiles returned when `partition` stops because too few workers are
available. -/
theorem partition_fst_stop (area : WorkOrder) (workers dimension : ℕ)
    (h1 : workers / workerRedundancy < 2) :
    (partition area workers dimension).1 = [area] := by
  rw [partition.eq_def, if_pos h1]
  split_ifs <;> rfl

/-- The tiles returned when `partition` stops at the kernel size floor. -/
theorem partition_fst_kernel (area : WorkOrder) (workers dimension : ℕ)
    (h1 : ¬ workers / workerRedundancy < 2)
    (hk : area.width ≤ widthKernel ∧ area.height ≤ heightKernel) :
    (partition area workers dimension).1 = [area] := by
  rw [partition.eq_def, if_neg h1, dif_pos hk]

/-- Unfolding of `partition` on the branch that splits the width. -/
theorem partition_split_even (area : WorkOrder) (workers dimension : ℕ)
    (h1 : ¬ workers / workerRedundancy < 2)
    (hk : ¬(area.width ≤ widthKernel ∧ area.height ≤ heightKernel))
    (hdim : forcedDim area dimension % 2 = 0) :
    partition area workers dimension =
      ((partition ⟨area.x, area.y, area.width / 2, area.height, area.diff⟩
          (workers / 2 + workers % 2) ((forcedDim area dimension + 1) % 2)).1 ++
        (partition
          ⟨(area.x + area.width / 2) % U32, area.y,
            area.width / 2 + area.width % 2, area.height, area.diff⟩
          (workers / 2 +
            (partition ⟨area.x, area.y, area.width / 2, area.height, area.diff⟩
              (workers / 2 + workers % 2) ((forcedDim area dimension + 1) % 2)).2)
          ((forcedDim area dimension + 1) % 2)).1,
        (partition
          ⟨(area.x + area.width / 2) % U32, area.y,
            area.width / 2 + area.width % 2, area.height, area.diff⟩
          (workers / 2 +
            (partition ⟨area.x, area.y, area.width / 2, area.height, area.diff⟩
              (workers / 2 + workers % 2) ((forcedDim area dimension + 1) % 2)).2)
          ((forcedDim area dimension + 1) % 2)).2) := by
  rw [partition.eq_def, if_neg h1, dif_neg hk, dif_pos hdim]

/-- Unfolding of `partition` on the branch that splits the height. -/
theorem partition_split_odd (area : WorkOrder) (workers dimension : ℕ)
    (h1 : ¬ workers / workerRedundancy < 2)
    (hk : ¬(area.width ≤ widthKernel ∧ area.height ≤ heightKernel))
    (hdim : ¬ forcedDim area dimension % 2 = 0) :
    partition area workers dimension =
      ((partition ⟨area.x, area.y, area.width, area.height / 2, area.diff⟩
          (workers / 2 + workers % 2) ((forcedDim area dimension + 1) % 2)).1 ++
        (partition
          ⟨area.x, (area.y + area.height / 2) % U32,
            area.width, area.height / 2 + area.height % 2, area.diff⟩
          (workers / 2 +
            (partition ⟨area.x, area.y, area.width, area.height / 2, area.diff⟩
              (workers / 2 + workers % 2) ((forcedDim area dimension + 1) % 2)).2)
          ((forcedDim area dimension + 1) % 2)).1,
        (partition
          ⟨area.x, (area.y + area.height / 2) % U32,
            area.width, area.height / 2 + area.height % 2, area.diff⟩
          (workers / 2 +
            (partition ⟨area.x, area.y, area.width, area.height / 2, area.diff⟩
              (workers / 2 + workers % 2) ((forcedDim area dimension + 1) % 2)).2)
          ((forcedDim area dimension + 1) % 2)).2) := by
  rw [partition.eq_def, if_neg h1, dif_neg hk, dif_neg hdim]

/-- The three tiling properties claimed for `partition`: tiles of positive
extent, exact coverage of the input area, and pairwise disjointness. -/
def TileSpec (area : WorkOrder) (workers dimension : ℕ) : Prop :=
  (∀ t ∈ (partition area workers dimension).1, 1 ≤ t.width ∧ 1 ≤ t.height) ∧
  (∀ p : ℕ × ℕ,
    InArea p area ↔ ∃ t ∈ (partition area workers dimension).1, InArea p t) ∧
  (partition area workers dimension).1.Pairwise
    (fun t₁ t₂ => ∀ p : ℕ × ℕ, ¬(InArea p t₁ ∧ InArea p t₂))

/-- Tiling for the width-splitting branch, given the induction hypothesis for
smaller areas. -/
theorem partition_tiles_even (n : ℕ)
    (ih : ∀ (a : WorkOrder) (w d : ℕ),
      a.width + a.height ≤ n → 1 ≤ a.width → 1 ≤ a.height →
      a.x + a.width ≤ U32 → a.y + a.height ≤ U32 → TileSpec a w d)
    (area : WorkOrder) (workers dimension : ℕ)
    (hn : area.width + area.height ≤ n + 1)
    (hw : 1 ≤ area.width) (hh : 1 ≤ area.height)
    (hx : area.x + area.width ≤ U32) (hy : area.y + area.height ≤ U32)
    (h1 : ¬ workers / workerRedundancy < 2)
    (hk : ¬(area.width ≤ widthKernel ∧ area.height ≤ heightKernel))
    (hdim : forcedDim area dimension % 2 = 0) :
    TileSpec area workers dimension := by
  have hw50 : widthKernel < area.width := by
    unfold forcedDim at hdim
    split_ifs at hdim <;> omega
  simp only [widthKernel] at hw50
  simp only [U32] at hx hy
  have hmod : (area.x + area.width / 2) % U32 = area.x + area.width / 2 := by
    simp only [U32]
    omega
  unfold TileSpec
  rw [partition_split_even area workers dimension h1 hk hdim, hmod]
  have H₁ := ih ⟨area.x, area.y, area.width / 2, area.height, area.diff⟩
    (workers / 2 + workers % 2) ((forcedDim area dimension + 1) % 2)
    (by show area.width / 2 + area.height ≤ n; omega)
    (by show 1 ≤ area.width / 2; omega) hh
    (by show area.x + area.width / 2 ≤ U32; simp only [U32]; omega)
    (by show area.y + area.height ≤ U32; simp only [U32]; omega)
  unfold TileSpec at H₁
  obtain ⟨d₁, u₁, pw₁⟩ := H₁
  have H₂ := ih ⟨area.x + area.width / 2, area.y,
      area.width / 2 + area.width % 2, area.height, area.diff⟩
    (workers / 2 +
      (partition ⟨area.x, area.y, area.width / 2, area.height, area.diff⟩
        (workers / 2 + workers % 2) ((forcedDim area dimension + 1) % 2)).2)
    ((forcedDim area dimension + 1) % 2)
    (by show area.width / 2 + area.width % 2 + area.height ≤ n; omega)
    (by show 1 ≤ area.width / 2 + area.width % 2; omega) hh
    (by show area.x + area.width / 2 + (area.width / 2 + area.width % 2) ≤ U32
        simp only [U32]; omega)
    (by show area.y + area.height ≤ U32; simp only [U32]; omega)
  unfold TileSpec at H₂
  obtain ⟨d₂, u₂, pw₂⟩ := H₂
  refine ⟨?_, ?_, ?_⟩
  · intro t ht
    rcases List.mem_append.mp ht with h | h
    · exact d₁ t h
    · exact d₂ t h
  · intro p
    have hsplit : InArea p area ↔
        InArea p ⟨area.x, area.y, area.width / 2, area.height, area.diff⟩ ∨
        InArea p ⟨area.x + area.width / 2, area.y,
          area.width / 2 + area.width % 2, area.height, area.diff⟩ := by
      simp only [InArea]
      omega
    rw [hsplit, u₁ p, u₂ p]
    constructor
    · rintro (⟨t, ht, hpt⟩ | ⟨t, ht, hpt⟩)
      · exact ⟨t, List.mem_append.mpr (Or.inl ht), hpt⟩
      · exact ⟨t, List.mem_append.mpr (Or.inr ht), hpt⟩
    · rintro ⟨t, ht, hpt⟩
      rcases List.mem_append.mp ht with h | h
      · exact Or.inl ⟨t, h, hpt⟩
      · exact Or.inr ⟨t, h, hpt⟩
  · rw [List.pairwise_append]
    refine ⟨pw₁, pw₂, ?_⟩
    intro t₁ ht₁ t₂ ht₂ p ⟨hp₁, hp₂⟩
    have hl : InArea p ⟨area.x, area.y, area.width / 2, area.height, area.diff⟩ :=
      (u₁ p).mpr ⟨t₁, ht₁, hp₁⟩
    have hr : InArea p ⟨area.x + area.width / 2, area.y,
        area.width / 2 + area.width % 2, area.height, area.diff⟩ :=
      (u₂ p).mpr ⟨t₂, ht₂, hp₂⟩
    simp only [InArea] at hl hr
    omega

/-- Tiling for the height-splitting branch, given the induction hypothesis for
smaller areas. -/
theorem partition_tiles_odd (n : ℕ)
    (ih : ∀ (a : WorkOrder) (w d : ℕ),
      a.width + a.height ≤ n → 1 ≤ a.width → 1 ≤ a.height →
      a.x + a.width ≤ U32 → a.y + a.height ≤ U32 → TileSpec a w d)
    (area : WorkOrder) (workers dimension : ℕ)
    (hn : area.width + area.height ≤ n + 1)
    (hw : 1 ≤ area.width) (hh : 1 ≤ area.height)
    (hx : area.x + area.width ≤ U32) (hy : area.y + area.height ≤ U32)
    (h1 : ¬ workers / workerRedundancy < 2)
    (hk : ¬(area.width ≤ widthKernel ∧ area.height ≤ heightKernel))
    (hdim : ¬ forcedDim area dimension % 2 = 0) :
    TileSpec area workers dimension := by
  have hh50 : heightKernel < area.height := by
    unfold forcedDim at hdim
    split_ifs at hdim <;> omega
  simp only [heightKernel] at hh50
  simp only [U32] at hx hy
  have hmod : (area.y + area.height / 2) % U32 = area.y + area.height / 2 := by
    simp only [U32]
    omega
  unfold TileSpec
  rw [partition_split_odd area workers dimension h1 hk hdim, hmod]
  have H₁ := ih ⟨area.x, area.y, area.width, area.height / 2, area.diff⟩
    (workers / 2 + workers % 2) ((forcedDim area dimension + 1) % 2)
    (by show area.width + area.height / 2 ≤ n; omega) hw
    (by show 1 ≤ area.height / 2; omega)
    (by show area.x + area.width ≤ U32; simp only [U32]; omega)
    (by show area.y + area.height / 2 ≤ U32; simp only [U32]; omega)
  unfold TileSpec at H₁
  obtain ⟨d₁, u₁, pw₁⟩ := H₁
  have H₂ := ih ⟨area.x, area.y + area.height / 2,
      area.width, area.height / 2 + area.height % 2, area.diff⟩
    (workers / 2 +
      (partition ⟨area.x, area.y, area.width, area.height / 2, area.diff⟩
        (workers / 2 + workers % 2) ((forcedDim area dimension + 1) % 2)).2)
    ((forcedDim area dimension + 1) % 2)
    (by show area.width + (area.height / 2 + area.height % 2) ≤ n; omega) hw
    (by show 1 ≤ area.height / 2 + area.height % 2; omega)
    (by show area.x + area.width ≤ U32; simp only [U32]; omega)
    (by show area.y + area.height / 2 + (area.height / 2 + area.height % 2) ≤ U32
        simp only [U32]; omega)
  unfold TileSpec at H₂
  obtain ⟨d₂, u₂, pw₂⟩ := H₂
  refine ⟨?_, ?_, ?_⟩
  · intro t ht
    rcases List.mem_append.mp ht with h | h
    · exact d₁ t h
    · exact d₂ t h
  · intro p
    have hsplit : InArea p area ↔
        InArea p ⟨area.x, area.y, area.width, area.height / 2, area.diff⟩ ∨
        InArea p ⟨area.x, area.y + area.height / 2,
          area.width, area.height / 2 + area.height % 2, area.diff⟩ := by
      simp only [InArea]
      omega
    rw [hsplit, u₁ p, u₂ p]
    constructor
    · rintro (⟨t, ht, hpt⟩ | ⟨t, ht, hpt⟩)
      · exact ⟨t, List.mem_append.mpr (Or.inl ht), hpt⟩
      · exact ⟨t, List.mem_append.mpr (Or.inr ht), hpt⟩
    · rintro ⟨t, ht, hpt⟩
      rcases List.mem_append.mp ht with h | h
      · exact Or.inl ⟨t, h, hpt⟩
      · exact Or.inr ⟨t, h, hpt⟩
  · rw [List.pairwise_append]
    refine ⟨pw₁, pw₂, ?_⟩
    intro t₁ ht₁ t₂ ht₂ p ⟨hp₁, hp₂⟩
    have hl : InArea p ⟨area.x, area.y, area.width, area.height / 2, area.diff⟩ :=
      (u₁ p).mpr ⟨t₁, ht₁, hp₁⟩
    have hr : InArea p ⟨area.x, area.y + area.height / 2,
        area.width, area.height / 2 + area.height % 2, area.diff⟩ :=
      (u₂ p).mpr ⟨t₂, ht₂, hp₂⟩
    simp only [InArea] at hl hr
    omega

/-- Auxiliary strong-induction form of the tiling theorem: `n` bounds the
recursion measure `width + height`. -/
theorem partition_tiles_bounded (n : ℕ) :
    ∀ (area : WorkOrder) (workers dimension : ℕ),
    area.width + area.height ≤ n →
    1 ≤ area.width → 1 ≤ area.height →
    area.x + area.width ≤ U32 → area.y + area.height ≤ U32 →
    TileSpec area workers dimension := by
  induction n with
  | zero =>
    intro area workers dimension hn hw hh hx hy
    omega
  | succ n ih =>
    intro area workers dimension hn hw hh hx hy
    by_cases h1 : workers / workerRedundancy < 2
    · unfold TileSpec
      rw [partition_fst_stop area workers dimension h1]
      refine ⟨?_, ?_, ?_⟩
      · intro t ht
        rw [List.mem_singleton] at ht
        subst ht
        exact ⟨hw, hh⟩
      · intro p
        simp
      · simp
    · by_cases hk : area.width ≤ widthKernel ∧ area.height ≤ heightKernel
      · unfold TileSpec
        rw [partition_fst_kernel area workers dimension h1 hk]
        refine ⟨?_, ?_, ?_⟩
        · intro t ht
          rw [List.mem_singleton] at ht
          subst ht
          exact ⟨hw, hh⟩
        · intro p
          simp
        · simp
      · by_cases hdim : forcedDim area dimension % 2 = 0
        · exact partition_tiles_even n ih area workers dimension hn hw hh hx hy h1 hk hdim
        · exact partition_tiles_odd n ih area workers dimension hn hw hh hx hy h1 hk hdim

/-- Claim C5: for every input area with width ≥ 1 and height ≥ 1 (lying within
the `uint32` coordinate range, as any screen area does), every worker count
and either starting split axis, the tiles returned by `partition` have width
and height ≥ 1, cover the input area exactly, and are pairwise disjoint. -/
theorem partition_tiles (area : WorkOrder) (workers dimension : ℕ) :
    1 ≤ area.width → 1 ≤ area.height →
    area.x + area.width ≤ U32 → area.y + area.height ≤ U32 →
    (∀ t ∈ (partition area workers dimension).1, 1 ≤ t.width ∧ 1 ≤ t.height) ∧
    (∀ p : ℕ × ℕ,
      InArea p area ↔ ∃ t ∈ (partition area workers dimension).1, InArea p t) ∧
    (partition area workers dimension).1.Pairwise
      (fun t₁ t₂ => ∀ p : ℕ × ℕ, ¬(InArea p t₁ ∧ InArea p t₂)) :=
  partition_tiles_bounded (area.width + area.height) area workers dimension le_rfl

/-- Concrete instantiation of `partition_tiles` on the scenario area
`(0, 0, 100, 100)` with 4 workers and initial dimension 0. -/
theorem partition_tiles_witness :
    (∀ t ∈ (partition ⟨0, 0, 100, 100, []⟩ 4 0).1, 1 ≤ t.width ∧ 1 ≤ t.height) ∧
    (∀ p : ℕ × ℕ,
      InArea p ⟨0, 0, 100, 100, []⟩ ↔
        ∃ t ∈ (partition ⟨0, 0, 100, 100, []⟩ 4 0).1, InArea p t) ∧
    (partition ⟨0, 0, 100, 100, []⟩ 4 0).1.Pairwise
      (fun t₁ t₂ => ∀ p : ℕ × ℕ, ¬(InArea p t₁ ∧ InArea p t₂)) :=
  partition_tiles ⟨0, 0, 100, 100, []⟩ 4 0 (by norm_num) (by norm_num)
    (by norm_num [U32]) (by norm_num [U32])

/-- Counterexample to claim C4 as stated: the tiles returned for the
scenario's input are not `(0, 0, 100, 50)` and `(0, 50, 100, 50)`. -/
theorem partition_scenario_counterexample :
    partition ⟨0, 0, 100, 100, []⟩ 4 0 ≠
      ([⟨0, 0, 100, 50, []⟩, ⟨0, 50, 100, 50, []⟩], 0) := by
  rw [partition_scenario_eval]
  decide

end master

namespace worker

/-- `comms.TraceResults_Colour` (from `src/shared/comms/comms.proto`): one
colour entry of a `TraceResults` reply, three `uint32` channels. -/
structure TraceResultsColour where
  r : ℕ
  g : ℕ
  b : ℕ
deriving DecidableEq

/-- The results buffer built by `Tracer.BulkTrace` in
`src/worker/distributed/main.go` (lines 46–91).  The Go code pre-allocates
`width * height` entries and, for each `0 ≤ i < width` and `0 ≤ j < height`,
writes the colour of screen pixel `(xInit + i, yInit + j)` into slot
`i * height + j`; every slot is written exactly once and the loop order is
exactly the buffer order, so the buffer equals this row-major generation.
`trace` abstracts `tracer.Trace` composed with `RGB()`: `some (r, g, b)` (the
`uint8` channels, widened to `uint32`) when the pixel's ray hits an object,
`none` on a miss; a miss is serialised as `(0, 0, 0)`. -/
def BulkTraceResults (trace : ℕ → ℕ → Option (ℕ × ℕ × ℕ))
    (xInit yInit width height : ℕ) : List TraceResultsColour :=
  (List.range width).flatMap fun i =>
    (List.range height).map fun j =>
      match trace (xInit + i) (yInit + j) with
      | some (r, g, b) => ⟨r, g, b⟩
      | none => ⟨0, 0, 0⟩

theorem length_flatMap_const {α : Type} (f : ℕ → List α) (h : ℕ)
    (hf : ∀ i, (f i).length = h) :
    ∀ w : ℕ, ((List.range w).flatMap f).length = w * h := by
  intro w
  induction w with
  | zero => simp
  | succ w ih =>
    rw [List.range_succ, List.flatMap_append, List.length_append, ih]
    simp [hf, Nat.succ_mul]

theorem get_flatMap_const {α : Type} (f : ℕ → List α) (h : ℕ)
    (hf : ∀ i, (f i).length = h) :
    ∀ (w i j : ℕ), i < w → j < h →
      ((List.range w).flatMap f).get? (i * h + j) = (f i).get? j := by
  intro w
  induction w with
  | zero => omega
  | succ w ih =>
    intro i j hi hj
    rw [List.range_succ, List.flatMap_append]
    by_cases hiw : i < w
    · rw [List.get?_append]
      · exact ih i j hiw hj
      · rw [length_flatMap_const f h hf w]
        calc i * h + j < i * h + h := by omega
          _ ≤ w * h := by
              have : i + 1 ≤ w := hiw
              calc i * h + h = (i + 1) * h := by ring
                _ ≤ w * h := Nat.mul_le_mul_right h this
    · have hiw' : i = w := by omega
      subst hiw'
      rw [List.get?_append_right]
      · rw [length_flatMap_const f h hf i]
        simp [Nat.add_sub_cancel_left]
      · rw [length_flatMap_const f h hf i]
        omega

/-- Claim C7: a successful `BulkTrace` reply for a `width × height` order
contains exactly `width * height` colour entries; the colour computed for
screen pixel `(x + i, y + j)` is stored at index `i * height + j`; and every
pixel whose trace reports no hit is serialised as the colour `(0, 0, 0)`. -/
theorem bulkTrace_layout (trace : ℕ → ℕ → Option (ℕ × ℕ × ℕ)) (x y w h : ℕ) :
    (BulkTraceResults trace x y w h).length = w * h ∧
    (∀ i j, i < w → j < h →
      (BulkTraceResults trace x y w h).get? (i * h + j) =
        some (match trace (x + i) (y + j) with
              | some (r, g, b) => ⟨r, g, b⟩
              | none => ⟨0, 0, 0⟩)) ∧
    (∀ i j, i < w → j < h → trace (x + i) (y + j) = none →
      (BulkTraceResults trace x y w h).get? (i * h + j) = some ⟨0, 0, 0⟩) := by
  have hlen : ∀ i : ℕ,
      ((List.range h).map (fun j => (match trace (x + i) (y + j) with
        | some (r, g, b) => (⟨r, g, b⟩ : TraceResultsColour)
        | none => ⟨0, 0, 0⟩))).length = h := by
    intro i
    simp
  have hget : ∀ i j, i < w → j < h →
      (BulkTraceResults trace x y w h).get? (i * h + j) =
        some (match trace (x + i) (y + j) with
              | some (r, g, b) => ⟨r, g, b⟩
              | none => ⟨0, 0, 0⟩) := by
    intro i j hi hj
    unfold BulkTraceResults
    rw [get_flatMap_const _ h hlen w i j hi hj, List.get?_map, List.get?_range hj]
    rfl
  refine ⟨length_flatMap_const _ h hlen w, hget, ?_⟩
  intro i j hi hj hmiss
  rw [hget i j hi hj, hmiss]

/-- Concrete instantiation of `bulkTrace_layout`: for a `2 × 3` order at
`(1, 2)` whose trace hits only pixel `(1, 2)` with colour `(7, 8, 9)`, the
reply has 6 entries, entry `0` holds `(7, 8, 9)` and entry `3` (pixel
`(2, 2)`, a miss) holds `(0, 0, 0)`. -/
theorem bulkTrace_layout_witness :
    (BulkTraceResults
        (fun a b => if a = 1 ∧ b = 2 then some (7, 8, 9) else none)
        1 2 2 3).length = 2 * 3 ∧
    (BulkTraceResults
        (fun a b => if a = 1 ∧ b = 2 then some (7, 8, 9) else none)
        1 2 2 3).get? (0 * 3 + 0) = some ⟨7, 8, 9⟩ ∧
    (BulkTraceResults
        (fun a b => if a = 1 ∧ b = 2 then some (7, 8, 9) else none)
        1 2 2 3).get? (1 * 3 + 0) = some ⟨0, 0, 0⟩ := by
  refine ⟨(bulkTrace_layout _ 1 2 2 3).1, ?_, ?_⟩
  · rw [(bulkTrace_layout (fun a b => if a = 1 ∧ b = 2 then some (7, 8, 9) else none)
      1 2 2 3).2.1 0 0 (by norm_num) (by norm_num)]
    norm_num
  · exact (bulkTrace_layout (fun a b => if a = 1 ∧ b = 2 then some (7, 8, 9) else none)
      1 2 2 3).2.2 1 0 (by norm_num) (by norm_num) (by norm_num)

end worker

namespace master

/-- The pixel reads performed by the frame-compositing loop of
`newCoordinator` in `src/master/main.go` (lines 167–177): for each partition
`o`, the loop variables run over the absolute screen coordinates
`i ∈ [o.x, o.x + o.width)` and `j ∈ [o.y, o.y + o.height)` and the colour
written to screen pixel `(i, j)` is read from index `i * surface_height + j`
of the partition's results list.  Each element pairs the screen pixel with the
index read for it. -/
def compositeReads (o : WorkOrder) (surfaceH : ℕ) : List ((ℕ × ℕ) × ℕ) :=
  (List.range' o.x o.width).flatMap fun i =>
    (List.range' o.y o.height).map fun j => ((i, j), i * surfaceH + j)

/-- Claim C8 (corrected): when the master composites a frame, the colour
written to screen pixel `(x + i, y + j)` of a partition with origin `(x, y)`
is read from index `(x + i) * surface_height + (y + j)` of that partition's
results list — the loop indexes with absolute screen coordinates, not with
the partition-relative offsets `i * surface_height + j` stated in the claim. -/
theorem composite_read_index (o : WorkOrder) (surfaceH i j : ℕ)
    (hi : i < o.width) (hj : j < o.height) :
    (((o.x + i, o.y + j), (o.x + i) * surfaceH + (o.y + j)) ∈
      compositeReads o surfaceH) ∧
    ∀ e ∈ compositeReads o surfaceH, e.2 = e.1.1 * surfaceH + e.1.2 := by
  constructor
  · unfold compositeReads
    rw [List.mem_flatMap]
    refine ⟨o.x + i, ?_, ?_⟩
    · rw [List.mem_range'_1]
      exact ⟨Nat.le_add_right _ _, by omega⟩
    · rw [List.mem_map]
      exact ⟨o.y + j, by rw [List.mem_range'_1]; exact ⟨Nat.le_add_right _ _, by omega⟩, rfl⟩
  · intro e he
    unfold compositeReads at he
    rw [List.mem_flatMap] at he
    obtain ⟨a, _, he⟩ := he
    rw [List.mem_map] at he
    obtain ⟨b, _, he⟩ := he
    rw [← he]

/-- Concrete instantiation of `composite_read_index` at the partition
`(1, 0, 1, 1)` with surface height 2. -/
theorem composite_read_index_witness :
    (((1 + 0, 0 + 0), (1 + 0) * 2 + (0 + 0)) ∈
      compositeReads ⟨1, 0, 1, 1, []⟩ 2) ∧
    ∀ e ∈ compositeReads ⟨1, 0, 1, 1, []⟩ 2, e.2 = e.1.1 * 2 + e.1.2 :=
  composite_read_index ⟨1, 0, 1, 1, []⟩ 2 0 0 (by norm_num) (by norm_num)

/-- Counterexample to claim C8 as stated: for the partition with origin
`(1, 0)`, size `1 × 1`, on a surface of height 2, the single pixel `(1, 0)`
(offset `(0, 0)`) is read from index `1 * 2 + 0 = 2`, not from the
offset-based index `0 * 2 + 0 = 0` the claim predicts. -/
theorem composite_read_counterexample :
    compositeReads ⟨1, 0, 1, 1, []⟩ 2 = [((1, 0), 2)] ∧ (2 : ℕ) ≠ 0 * 2 + 0 := by
  constructor
  · decide
  · decide

end master

namespace pool

/-- An entry of the master's worker pool, from `worker` in `src/unnamed/part_010`
(package `pool`).  The Go struct's `connection`, `stopHeartbeats` and
`closing` fields govern only the RPC connection lifecycle and never influence
the heap's shape or task counts, so they are omitted.  The `index` field is
kept equal to the entry's position in the heap slice by every `swap`, so the
position in the modelled list plays its role.  `addr` is the key under which
the entry appears in the pool's `addresses` map. -/
structure worker where
  addr : String
  tasks : ℕ
deriving DecidableEq

/-- The task count of the heap entry at position `i` (`p.heap[i].tasks`);
out-of-range positions, never accessed by the source on the paths modelled
here, default to `0`. -/
def taskAt (h : List worker) (i : ℕ) : ℕ :=
  (h[i]?.map worker.tasks).getD 0

/-- `Pool.swap` from `src/unnamed/part_010` (lines 68–79): exchange the heap
entries at positions `i` and `j` when both are in range (updating their
`index` fields, which here is implicit in the positions). -/
def swap (h : List worker) (i j : ℕ) : List worker :=
  if hij : i < h.length ∧ j < h.length then
    (h.set i (h.get ⟨j, hij.2⟩)).set j (h.get ⟨i, hij.1⟩)
  else h

@[simp]
theorem length_swap (h : List worker) (i j : ℕ) : (swap h i j).length = h.length := by
  unfold swap
  split <;> simp

/-- One fuel unit per loop iteration of the `for` loop in `Pool.bubbleUp`
(`src/unnamed/part_010` lines 83–101): while `i > 0`, compute
`parent := i / 2` (the source's 1-based parent formula, kept verbatim) and
swap upward while the worker has fewer tasks than `heap[parent]`.  Since `i`
strictly decreases, the loop runs at most `i` times; `bubbleUpIter_congr`
shows every sufficient fuel gives the same result and `bubbleUp` passes
`i + 1`. -/
def bubbleUpIter : ℕ → List worker → ℕ → List worker
  | 0, h, _ => h
  | fuel + 1, h, i =>
    if i = 0 then h
    else if taskAt h i < taskAt h (i / 2) then
      bubbleUpIter fuel (swap h i (i / 2)) (i / 2)
    else h

/-- `Pool.bubbleUp` from `src/unnamed/part_010`, applied to the worker at
position `i` of the heap. -/
def bubbleUp (h : List worker) (i : ℕ) : List worker :=
  bubbleUpIter (i + 1) h i

theorem bubbleUpIter_congr :
    ∀ (f₁ f₂ : ℕ) (h : List worker) (i : ℕ), i < f₁ → i < f₂ →
      bubbleUpIter f₁ h i = bubbleUpIter f₂ h i := by
  intro f₁
  induction f₁ with
  | zero => omega
  | succ a ih =>
    intro f₂ h i h₁ h₂
    cases f₂ with
    | zero => omega
    | succ b =>
      by_cases h0 : i = 0
      · simp [bubbleUpIter, h0]
      · simp only [bubbleUpIter, if_neg h0]
        by_cases hlt : taskAt h i < taskAt h (i / 2)
        · rw [if_pos hlt, if_pos hlt]
          exact ih b (swap h i (i / 2)) (i / 2) (by omega) (by omega)
        · rw [if_neg hlt, if_neg hlt]

/-- One fuel unit per loop iteration of the `for` loop in `Pool.bubbleDown`
(`src/unnamed/part_010` lines 105–145): while the worker at `i` has a child,
swap it with the smaller-task child while it has more tasks.  The position
strictly increases and stays below `h.length`, so the loop runs fewer than
`h.length` times; `bubbleDownIter_congr` shows every sufficient fuel gives
the same result and `bubbleDown` passes `h.length`. -/
def bubbleDownIter : ℕ → List worker → ℕ → List worker
  | 0, h, _ => h
  | fuel + 1, h, i =>
    if 2 * i + 1 < h.length then
      if 2 * i + 2 < h.length then
        if taskAt h (2 * i + 1) ≤ taskAt h (2 * i + 2) then
          if taskAt h (2 * i + 1) < taskAt h i then
            bubbleDownIter fuel (swap h i (2 * i + 1)) (2 * i + 1)
          else h
        else
          if taskAt h (2 * i + 2) < taskAt h i then
            bubbleDownIter fuel (swap h i (2 * i + 2)) (2 * i + 2)
          else h
      else
        if taskAt h (2 * i + 1) < taskAt h i then
          bubbleDownIter fuel (swap h i (2 * i + 1)) (2 * i + 1)
        else h
    else h

/-- `Pool.bubbleDown` from `src/unnamed/part_010`, applied to the worker at
position `i` of the heap. -/
def bubbleDown (h : List worker) (i : ℕ) : List worker :=
  bubbleDownIter h.length h i

theorem bubbleDownIter_congr :
    ∀ (f₁ f₂ : ℕ) (h : List worker) (i : ℕ),
      h.length ≤ i + f₁ → h.length ≤ i + f₂ →
      bubbleDownIter f₁ h i = bubbleDownIter f₂ h i := by
  intro f₁
  induction f₁ with
  | zero =>
    intro f₂ h i h₁ h₂
    cases f₂ with
    | zero => rfl
    | succ b =>
      show bubbleDownIter 0 h i = bubbleDownIter (b + 1) h i
      simp only [bubbleDownIter]
      rw [if_neg (by omega)]
  | succ a ih =>
    intro f₂ h i h₁ h₂
    cases f₂ with
    | zero =>
      show bubbleDownIter (a + 1) h i = bubbleDownIter 0 h i
      simp only [bubbleDownIter]
      rw [if_neg (by omega)]
    | succ b =>
      simp only [bubbleDownIter]
      by_cases hc1 : 2 * i + 1 < h.length
      · rw [if_pos hc1, if_pos hc1]
        by_cases hc2 : 2 * i + 2 < h.length
        · rw [if_pos hc2, if_pos hc2]
          by_cases hc3 : taskAt h (2 * i + 1) ≤ taskAt h (2 * i + 2)
          · rw [if_pos hc3, if_pos hc3]
            by_cases hc4 : taskAt h (2 * i + 1) < taskAt h i
            · rw [if_pos hc4, if_pos hc4]
              exact ih b (swap h i (2 * i + 1)) (2 * i + 1)
                (by rw [length_swap]; omega) (by rw [length_swap]; omega)
            · rw [if_neg hc4, if_neg hc4]
          · rw [if_neg hc3, if_neg hc3]
            by_cases hc4 : taskAt h (2 * i + 2) < taskAt h i
            · rw [if_pos hc4, if_pos hc4]
              exact ih b (swap h i (2 * i + 2)) (2 * i + 2)
                (by rw [length_swap]; omega) (by rw [length_swap]; omega)
            · rw [if_neg hc4, if_neg hc4]
        · rw [if_neg hc2, if_neg hc2]
          by_cases hc4 : taskAt h (2 * i + 1) < taskAt h i
          · rw [if_pos hc4, if_pos hc4]
            exact ih b (swap h i (2 * i + 1)) (2 * i + 1)
              (by rw [length_swap]; omega) (by rw [length_swap]; omega)
          · rw [if_neg hc4, if_neg hc4]
      · rw [if_neg hc1, if_neg hc1]

theorem getElem_cons_set_perm {α : Type} :
    ∀ (t : List α) (m : ℕ) (hm : m < t.length) (a : α),
      List.Perm (t.get ⟨m, hm⟩ :: t.set m a) (a :: t) := by
  intro t
  induction t with
  | nil =>
    intro m hm
    simp at hm
  | cons b t ih =>
    intro m hm a
    cases m with
    | zero =>
      simp only [List.get, List.set_cons_zero]
      exact List.Perm.swap a b t
    | succ m =>
      simp only [List.get, List.set_cons_succ]
      exact (List.Perm.swap _ _ _).trans
        (((ih m (by simpa using hm) a).cons b).trans (List.Perm.swap _ _ _))

theorem set_set_swap_perm {α : Type} :
    ∀ (l : List α) (i j : ℕ) (hi : i < l.length) (hj : j < l.length),
      List.Perm ((l.set i (l.get ⟨j, hj⟩)).set j (l.get ⟨i, hi⟩)) l := by
  intro l
  induction l with
  | nil =>
    intro i j hi
    simp at hi
  | cons a t ih =>
    intro i j hi hj
    cases i with
    | zero =>
      cases j with
      | zero => simp
      | succ j =>
        simp only [List.get, List.set_cons_zero, List.set_cons_succ]
        exact getElem_cons_set_perm t j (by simpa using hj) a
    | succ i =>
      cases j with
      | zero =>
        simp only [List.get, List.set_cons_zero, List.set_cons_succ]
        exact getElem_cons_set_perm t i (by simpa using hi) a
      | succ j =>
        simp only [List.get, List.set_cons_succ]
        exact (ih i j (by simpa using hi) (by simpa using hj)).cons a

theorem swap_perm (h : List worker) (i j : ℕ) : List.Perm (swap h i j) h := by
  unfold swap
  split
  · next hij => exact set_set_swap_perm h i j hij.1 hij.2
  · exact List.Perm.refl h

theorem bubbleUpIter_perm :
    ∀ (f : ℕ) (h : List worker) (i : ℕ), List.Perm (bubbleUpIter f h i) h := by
  intro f
  induction f with
  | zero => exact fun h i => List.Perm.refl h
  | succ a ih =>
    intro h i
    simp only [bubbleUpIter]
    split_ifs
    · exact List.Perm.refl h
    · exact (ih (swap h i (i / 2)) (i / 2)).trans (swap_perm h i (i / 2))
    · exact List.Perm.refl h

theorem bubbleDownIter_perm :
    ∀ (f : ℕ) (h : List worker) (i : ℕ), List.Perm (bubbleDownIter f h i) h := by
  intro f
  induction f with
  | zero => exact fun h i => List.Perm.refl h
  | succ a ih =>
    intro h i
    simp only [bubbleDownIter]
    split_ifs
    · exact (ih (swap h i (2 * i + 1)) (2 * i + 1)).trans (swap_perm h i (2 * i + 1))
    · exact List.Perm.refl h
    · exact (ih (swap h i (2 * i + 2)) (2 * i + 2)).trans (swap_perm h i (2 * i + 2))
    · exact List.Perm.refl h
    · exact (ih (swap h i (2 * i + 1)) (2 * i + 1)).trans (swap_perm h i (2 * i + 1))
    · exact List.Perm.refl h
    · exact List.Perm.refl h

theorem bubbleDown_perm (h : List worker) (i : ℕ) :
    List.Perm (bubbleDown h i) h :=
  bubbleDownIter_perm h.length h i

/-- `Pool.Add` from `src/unnamed/part_010` (lines 263–288), as invoked with a
derived address: when the address is already present the body is skipped and
`nil` is returned (the pool is untouched); otherwise the source dials the
worker (failure modelled by `dialOk = false`, returning the dial error as
`none`), appends a fresh entry with `tasks = 0` at the end of the heap, and
bubbles it up.  `some` is a `nil` error together with the resulting pool. -/
def AddOp (h : List worker) (addr : String) (dialOk : Bool) : Option (List worker) :=
  if (h.map worker.addr).contains addr then some h
  else if dialOk then some (bubbleUp (h ++ [⟨addr, 0⟩]) h.length) else none

/-- `Pool.Assign` from `src/unnamed/part_010` (lines 148–197): with an empty
heap, return the `NoWorkers` error (`none`); otherwise increment the root
worker's task count, bubble it down from the root, and hand the caller a
result channel (`some` of the resulting heap).  The spawned goroutine's later
completion is modelled separately by `Complete`. -/
def Assign (h : List worker) : Option (List worker) :=
  match h with
  | [] => none
  | w :: rest => some (bubbleDown (⟨w.addr, w.tasks + 1⟩ :: rest) 0)

/-- The completion handler inside `Pool.Assign`'s goroutine
(`src/unnamed/part_010` lines 176–190): decrement the assignee's task count
and bubble it up if it is still in the heap (the source finds it through its
`index` field; entries are keyed by unique addresses, so lookup by address is
the same entry).  A completion for a worker no longer in the heap only
touches the detached entry and the connection, leaving the heap unchanged. -/
def Complete (h : List worker) (addr : String) : List worker :=
  match h.findIdx? (fun w => w.addr == addr) with
  | some i => bubbleUp (h.set i ⟨addr, taskAt h i - 1⟩) i
  | none => h

/-- `Pool.Remove`/`Pool.remove` from `src/unnamed/part_010` (lines 202–220 and
291–301): if the address is present, swap its entry with the last slot,
shrink the heap by one, and bubble the swapped-in entry down if one exists;
stopping heartbeats and closing the connection do not affect the heap. -/
def Remove (h : List worker) (addr : String) : List worker :=
  match h.findIdx? (fun w => w.addr == addr) with
  | some i =>
    let h₁ := (swap h (h.length - 1) i).dropLast
    if i < h₁.length then bubbleDown h₁ i else h₁
  | none => h

/-- The pool operations of claim C1: worker registration (`Add`), task
assignment (`Assign`), task completion, and worker removal (`Remove`). -/
inductive Op where
  | add (addr : String)
  | assign
  | complete (addr : String)
  | remove (addr : String)
deriving DecidableEq

/-- Apply one pool operation to the heap.  `Add` is taken with a successful
dial; a failed `Assign` (empty heap) leaves the pool unchanged. -/
def step (h : List worker) : Op → List worker
  | Op.add a => (AddOp h a true).getD h
  | Op.assign => (Assign h).getD h
  | Op.complete a => Complete h a
  | Op.remove a => Remove h a

/-- Run a sequence of pool operations starting from the empty pool. -/
def run (ops : List Op) : List worker :=
  ops.foldl step []

/-- The binary-heap invariant claimed for the pool: with children at
`2*i + 1` and `2*i + 2` (as `Pool.bubbleDown` lays the heap out), the parent
of position `i > 0` is `(i - 1) / 2`, and its task count is at most the
child's. -/
def HeapInv (h : List worker) : Prop :=
  ∀ i < h.length, 0 < i → taskAt h ((i - 1) / 2) ≤ taskAt h i

instance (h : List worker) : Decidable (HeapInv h) := by
  unfold HeapInv
  infer_instance

/-- C1's failing operation sequence: four registrations, two assignments, one
more registration. -/
def violatingOps : List Op :=
  [Op.add ("A"), Op.add ("B"), Op.add ("C"), Op.add ("D"),
   Op.assign, Op.assign, Op.add ("E")]

/-- Claim C1 (code bug): the heap invariant does not survive every operation
sequence.  After `add A ... add D, assign, assign, add E` the heap is
`[D:0, B:1, C:0, A:1, E:0]`; position 4 (`E`, 0 tasks) has parent position 1
(`B`, 1 task), violating `tasks(parent) ≤ tasks(child)`.  The cause:
`Pool.bubbleUp` computes `parent := i / 2` — the 1-based-heap formula — while
`Pool.bubbleDown` uses the 0-based children `2*i + 1` and `2*i + 2` (for
which the parent is `(i - 1) / 2`), so `bubbleUp` compares fresh workers at
even positions against the wrong entry. -/
theorem heap_invariant_violation :
    run violatingOps = [⟨("D"), 0⟩, ⟨("B"), 1⟩, ⟨("C"), 0⟩, ⟨("A"), 1⟩, ⟨("E"), 0⟩] ∧
    ¬ HeapInv (run violatingOps) := by
  constructor
  · rfl
  · decide

theorem taskAt_eq (h : List worker) (i : ℕ) (hi : i < h.length) :
    taskAt h i = (h.get ⟨i, hi⟩).tasks := by
  unfold taskAt
  rw [List.getElem?_eq_getElem hi]
  rfl

/-- Under the heap invariant, the root's task count is minimal. -/
theorem heapInv_root_le (h : List worker) (hinv : HeapInv h) :
    ∀ i, i < h.length → taskAt h 0 ≤ taskAt h i := by
  intro i
  induction i using Nat.strong_induction_on with
  | _ i ih =>
    intro hi
    rcases Nat.eq_zero_or_pos i with h0 | h0
    · subst h0
      exact le_refl _
    · exact le_trans (ih ((i - 1) / 2) (by omega) (by omega)) (hinv i hi h0)

/-- Claim C6: `Pool.Assign` fails with `NoWorkers` exactly when the heap is
empty; on a non-empty heap it takes the root worker — the least-loaded one
whenever the heap invariant holds — increments exactly that worker's task
count by 1, re-heapifies downward from the root, and succeeds (returning the
result channel); the resulting heap is a permutation of the old heap with
only the root's count incremented, so every other worker's count is
unchanged. -/
theorem assign_spec (h : List worker) :
    (Assign h = none ↔ h = []) ∧
    ∀ w rest, h = w :: rest →
      Assign h = some (bubbleDown (⟨w.addr, w.tasks + 1⟩ :: rest) 0) ∧
      List.Perm (bubbleDown (⟨w.addr, w.tasks + 1⟩ :: rest) 0)
        (⟨w.addr, w.tasks + 1⟩ :: rest) ∧
      (HeapInv h → ∀ u ∈ h, w.tasks ≤ u.tasks) := by
  constructor
  · cases h <;> simp [Assign]
  · rintro w rest rfl
    refine ⟨rfl, bubbleDown_perm _ 0, fun hinv u hu => ?_⟩
    obtain ⟨⟨i, hi⟩, rfl⟩ := List.mem_iff_get.mp hu
    have hle := heapInv_root_le _ hinv i hi
    rw [taskAt_eq _ i hi, taskAt_eq _ 0 (by simp)] at hle
    exact hle

/-- Concrete instantiation of `assign_spec` on the two-worker pool
`[A:0, B:2]`, which satisfies the heap invariant. -/
theorem assign_spec_witness :
    Assign [⟨("A"), 0⟩, ⟨("B"), 2⟩] =
      some (bubbleDown [⟨("A"), 1⟩, ⟨("B"), 2⟩] 0) ∧
    List.Perm (bubbleDown [⟨("A"), 1⟩, ⟨("B"), 2⟩] 0) [⟨("A"), 1⟩, ⟨("B"), 2⟩] ∧
    ∀ u ∈ [(⟨("A"), 0⟩ : worker), ⟨("B"), 2⟩], 0 ≤ u.tasks :=
  have H := (assign_spec [⟨("A"), 0⟩, ⟨("B"), 2⟩]).2 ⟨("A"), 0⟩ [⟨("B"), 2⟩] rfl
  ⟨H.1, H.2.1, H.2.2 (by decide)⟩

/-- The worker address derived by `Registrar.Register`
(`src/unnamed/part_007` line 39): the caller's network address with its
trailing run of digits (`unicode.IsNumber`; the digits of a port) replaced by
the decimal representation of the requested port. -/
def deriveAddr (caller : String) (port : ℕ) : String :=
  String.mk ((caller.data.reverse.dropWhile Char.isDigit).reverse) ++ Nat.repr port

/-- `Registrar.Register` from `src/unnamed/part_007` (lines 25–67): derive
the worker's receiving address, encode the scene (an encoding error, modelled
by `encodeOk = false`, is returned to the caller), call `Pool.Add` on the
derived address propagating its error, and otherwise reply with the master
state.  `some` is a successful registration carrying the resulting pool. -/
def Register (h : List worker) (caller : String) (port : ℕ)
    (encodeOk dialOk : Bool) : Option (List worker) :=
  if encodeOk then AddOp h (deriveAddr caller port) dialOk else none

/-- Claim C9 (corrected): a registration whose derived worker address is
already in the pool is not rejected — `Pool.Add` silently skips the insertion
and returns `nil`, so `Register` succeeds (whenever scene encoding succeeds,
and without dialling) — and the pool is left unchanged. -/
theorem register_duplicate (h : List worker) (caller : String) (port : ℕ)
    (dialOk : Bool)
    (hdup : (h.map worker.addr).contains (deriveAddr caller port) = true) :
    Register h caller port true dialOk = some h := by
  unfold Register AddOp
  rw [hdup]
  simp

/-- Concrete instantiation of `register_duplicate`: a two-entry pool, a
caller at a different source port, and a dial that would fail if attempted. -/
theorem register_duplicate_witness :
    Register [⟨("10.0.0.1:70"), 3⟩, ⟨("10.0.0.2:70"), 0⟩] ("10.0.0.1:123") 70
        true false =
      some [⟨("10.0.0.1:70"), 3⟩, ⟨("10.0.0.2:70"), 0⟩] :=
  register_duplicate [⟨("10.0.0.1:70"), 3⟩, ⟨("10.0.0.2:70"), 0⟩]
    ("10.0.0.1:123") 70 false (by decide)

/-- Counterexample to claim C9 as stated: with `1.2.3.4:5000` already pooled,
a registration from caller `1.2.3.4:9999` requesting port `5000` derives the
duplicate address `1.2.3.4:5000`, yet `Register` succeeds (no error) with the
pool unchanged, instead of rejecting the registration. -/
theorem register_duplicate_counterexample :
    Register [⟨("1.2.3.4:5000"), 0⟩] ("1.2.3.4:9999") 5000 true true =
      some [⟨("1.2.3.4:5000"), 0⟩] := by
  decide

end pool
